import Mathlib

/-!
# Verification of the `dps` training framework core

A shallow embedding, in Lean, of the parts of the `dps` repository that the
specification's testable properties talk about:

* `EarlyStopHook.check` (`dps/utils.py`) — early-stopping bookkeeping;
* `RLContext.__enter__` / `__exit__` (`dps/rl/base.py`) — the single-active-context lock;
* `RLContext.get_signal` (`dps/rl/base.py`) — memoized signal retrieval;
* `RLContext.update` (`dps/rl/base.py`) — on-policy / off-policy update scheduling;
* `TrainingLoop._run_core` (`dps/train.py`) — the curriculum stage loop;
* `RegisterSpec.as_obs` / `from_obs` / `instantiate` (`dps/register.py`);
* `GridArithmetic.build_step` (`dps/envs/grid_arithmetic.py`) — the accumulator update.

Machine floats are modelled by `ℚ`; tensors and graph nodes by explicit
syntax trees carrying an object identity; the mutable numpy RNG by an
explicitly threaded state.
-/

namespace DPS

/-! ## EarlyStopHook (`dps/utils.py`, lines 84-122)

The hook keeps the best validation loss seen so far, the step at which it was
seen, and a running step counter.  `check` is the source method translated to
explicit state passing; the `Option` result models the `TypeError` Python
would raise if `_best_value_step` were still `None` when the subtraction runs
(unreachable from the initial state, since the first call always records a
new best). -/

structure EarlyStopHook where
  patience : ℤ
  early_stopped : Bool
  best_value_step : Option ℤ
  best_value : Option ℚ
  step : ℤ
  deriving DecidableEq

def EarlyStopHook.start (patience : ℤ) : EarlyStopHook :=
  ⟨patience, false, none, none, 0⟩

def EarlyStopHook.check (h : EarlyStopHook) (validation_loss : ℚ) :
    Option ((Bool × Bool) × EarlyStopHook) :=
  let new_best : Bool :=
    match h.best_value with
    | none => true
    | some bv => decide (validation_loss < bv)
  let h1 : EarlyStopHook :=
    if new_best then
      { h with best_value := some validation_loss, best_value_step := some h.step }
    else h
  match h1.best_value_step with
  | none => none
  | some bvs =>
      let stop : Bool := decide (h1.patience < h1.step - bvs)
      let h2 : EarlyStopHook :=
        if stop then { h1 with early_stopped := true } else h1
      some ((new_best, stop), { h2 with step := h2.step + 1 })

/-! ## RLContext active-context lock (`dps/rl/base.py`, lines 106-113)

`RLContext.active_context` is a class variable holding the single active
context (or `None`); `__enter__` raises when it is already set, `__exit__`
resets it.  Contexts are identified by a numeric identity. -/

def rlContextEnter (selfId : ℕ) (active : Option ℕ) : Except String (Option ℕ) :=
  match active with
  | some _ => Except.error "May not have multiple instances of RLContext active at once."
  | none => Except.ok (some selfId)

def rlContextLeave (_active : Option ℕ) : Option ℕ := none

/-- One operation on the process-wide active-context slot. -/
inductive CtxOp where
  | enter (id : ℕ)
  | leave
  deriving DecidableEq

/-- Run one operation; a failing `__enter__` leaves the slot unchanged. -/
def applyCtxOp (active : Option ℕ) : CtxOp → Option ℕ
  | CtxOp.enter i =>
      match rlContextEnter i active with
      | Except.ok a => a
      | Except.error _ => active
  | CtxOp.leave => rlContextLeave active

def numActive (active : Option ℕ) : ℕ :=
  match active with
  | none => 0
  | some _ => 1

/-! ## RLContext signal memoization (`dps/rl/base.py`, lines 275-313)

A graph tensor is a syntax tree: leaves are freshly built nodes carrying a
numeric object identity and a rank (`len(signal.shape)`); `maskMul` is the
`signal *= mask` wrapper (the mask placeholder has shape `(T, None, 1)`,
rank 3, and broadcasting never lowers rank); `stopGradient` is the
`tf.stop_gradient` wrapper.  `underlying` strips the wrappers that
`get_signal` may add around the cached tensor. -/

inductive Tensor where
  | atom (id : ℕ) (rank : ℕ)
  | maskMul (t : Tensor)
  | stopGradient (t : Tensor)
  deriving DecidableEq

def Tensor.rank : Tensor → ℕ
  | atom _ r => r
  | maskMul t => max t.rank 3
  | stopGradient t => t.rank

def Tensor.underlying : Tensor → Tensor
  | atom i r => atom i r
  | maskMul t => t.underlying
  | stopGradient t => t.underlying

/-- A signal generator: `gen_key` is `str(hash(generator))` (or
`str(id(generator))` for unhashable generators), `outRank` the rank of the
tensors its `generate_signal` builds. -/
structure Generator where
  genKey : String
  outRank : ℕ
  deriving DecidableEq

/-- The mutable state of an `RLContext`'s signal system: the `_signals`
dictionary (an association list), a counter supplying fresh graph-node
identities, and a log of the memoization keys for which `generate_signal`
has been invoked. -/
structure SignalContext where
  signals : List (String × Tensor)
  nextId : ℕ
  genLog : List String
  deriving DecidableEq

/-- `generator.generate_signal(signal_key, self, **kwargs)` builds a fresh
graph node. -/
def Generator.generateSignal (g : Generator) (st : SignalContext) (fullKey : String) :
    Tensor × SignalContext :=
  (Tensor.atom st.nextId g.outRank,
   { st with nextId := st.nextId + 1, genLog := st.genLog ++ [fullKey] })

/-- The memoization key: `'|'.join([gen_key, signal_key] + sorted kwargs)`. -/
def signalFullKey (genKey key : String) (kwargs : List (String × String)) : String :=
  String.intercalate "|"
    (genKey :: key ::
      (List.insertionSort (fun a b : String × String => a.1 ≤ b.1) kwargs).map
        (fun kv => kv.1 ++ "=" ++ kv.2))

/-- The retrieval half of `get_signal`: the `generator is None` branch reads
`self._signals[key]` (`none` models the `KeyError` on a missing key); the
generator branch consults the cache when `memoize` is set and otherwise
regenerates. -/
def retrieveSignal (st : SignalContext) (key : String) (generator : Option Generator)
    (kwargs : List (String × String)) (memoize : Bool) :
    Option (Tensor × SignalContext) :=
  match generator with
  | none => (st.signals.lookup key).map (fun t => (t, st))
  | some g =>
      let fullKey := signalFullKey g.genKey key kwargs
      if memoize then
        match st.signals.lookup fullKey with
        | some t => some (t, st)
        | none =>
            let ts := g.generateSignal st fullKey
            some (ts.1, { ts.2 with signals := ts.2.signals ++ [(fullKey, ts.1)] })
      else
        some (g.generateSignal st fullKey)

/-- The post-processing half of `get_signal`: the mask multiplication is
applied only when `masked` is requested and the signal is maskable
(`len(signal.shape) >= 2`); `stop_gradient` is applied unless `gradient`. -/
def postprocessSignal (gradient masked : Bool) (sig : Tensor) : Tensor :=
  let sig := if masked && decide (2 ≤ sig.rank) then Tensor.maskMul sig else sig
  if !gradient then Tensor.stopGradient sig else sig

/-- `RLContext.get_signal(key, generator, gradient, masked, memoize, **kwargs)`. -/
def getSignal (st : SignalContext) (key : String) (generator : Option Generator)
    (kwargs : List (String × String)) (gradient masked memoize : Bool) :
    Option (Tensor × SignalContext) :=
  (retrieveSignal st key generator kwargs memoize).map
    (fun ts => (postprocessSignal gradient masked ts.1, ts.2))

/-- One recorded `get_signal` call (with memoization left enabled when used
in a trace). -/
structure SignalCall where
  key : String
  generator : Option Generator
  kwargs : List (String × String)
  gradient : Bool
  masked : Bool

/-- The context state after one memoized `get_signal` call (a failed lookup
of a missing core signal leaves the state unchanged). -/
def signalStep (st : SignalContext) (c : SignalCall) : SignalContext :=
  match getSignal st c.key c.generator c.kwargs c.gradient c.masked true with
  | some ts => ts.2
  | none => st

/-- Run a sequence of memoized `get_signal` calls, threading the context
state. -/
def runSignalCalls (st : SignalContext) (calls : List SignalCall) : SignalContext :=
  calls.foldl signalStep st

/-- The cache/log invariant: no memoization key has been generated twice, and
every generated key is cached.  It holds for a fresh context (`signals`
holding only the core signals, `genLog` empty). -/
def SignalInv (st : SignalContext) : Prop :=
  st.genLog.Nodup ∧ ∀ k, k ∈ st.genLog → (st.signals.lookup k).isSome = true

/-! ## RLContext.update (`dps/rl/base.py`, lines 339-376)

`update(batch_size)` collects on-policy rollouts, runs `_run_and_record`
once (with `do_update = replay_buffer is None or on_policy_updates`), and —
when a replay buffer is set — adds the rollouts to the buffer and then runs
up to `replay_updates_per_sample` off-policy updates, breaking out of the
loop as soon as `get_batch` yields no rollouts.  We record the call sequence
as a trace of events; `getBatch i` is the (rollouts-part of the) result of
the `i`-th `replay_buffer.get_batch` call, `none` modelling too few stored
experiences. -/

structure UpdateConfig where
  replay_updates_per_sample : ℕ
  on_policy_updates : Bool
  deriving DecidableEq

inductive UpdateEvent where
  | collectRollouts
  | trainPhase (doUpdate : Bool)
  | addRollouts
  | offPolicyPhase (i : ℕ)
  deriving DecidableEq

/-- The `for i in range(replay_updates_per_sample)` loop with its
`if off_policy_rollouts is None: break`. -/
def offPolicyLoop (getBatch : ℕ → Option ℕ) : ℕ → ℕ → List UpdateEvent
  | 0, _ => []
  | n + 1, i =>
      match getBatch i with
      | none => []
      | some _ => UpdateEvent.offPolicyPhase i :: offPolicyLoop getBatch n (i + 1)

/-- The event trace of one `RLContext.update` call. -/
def rlUpdate (c : UpdateConfig) (hasReplayBuffer : Bool) (getBatch : ℕ → Option ℕ) :
    List UpdateEvent :=
  UpdateEvent.collectRollouts ::
  UpdateEvent.trainPhase (!hasReplayBuffer || c.on_policy_updates) ::
  (if hasReplayBuffer then
     UpdateEvent.addRollouts :: offPolicyLoop getBatch c.replay_updates_per_sample 0
   else [])

/-! ## TrainingLoop._run_core (`dps/train.py`, lines 44-142)

The stage loop, for a run with no wall-clock limit (`max_time = None`, so
`time_remaining` is infinite and the limiter never fires).  Each curriculum
stage either completes normally — `_run_stage` returns
`(threshold_reached, n_steps, reason)` — or raises `KeyboardInterrupt`,
which the loop catches, setting `reason = "User interrupt."` and leaving
`threshold_reached` at its previous value (it is initialised to `True`
before the first stage).  After every stage the loop restores the best
checkpoint, calls `curriculum.end_stage()`, and advances exactly when
`threshold_reached or cfg.power_through`; an exhausted curriculum prints
the completion message.  Every exit path then reports the accumulated
history. -/

inductive StageResult where
  | report (thresholdReached : Bool) (reason : String)
  | interrupt
  deriving DecidableEq

inductive CoreEvent where
  | runStage (stage : ℕ)
  | stageReason (stage : ℕ) (reason : String)
  | restoreBest (stage : ℕ)
  | endStage (stage : ℕ)
  | advanceTo (stage : ℕ)
  | haltAt (stage : ℕ)
  | curriculumComplete (nStages : ℕ)
  | reportHistory
  deriving DecidableEq

def runCoreAux (powerThrough : Bool) : List StageResult → ℕ → Bool → List CoreEvent
  | [], stage, _ =>
      [CoreEvent.curriculumComplete (stage - 1), CoreEvent.reportHistory]
  | res :: rest, stage, thresholdReached =>
      let tr := match res with
        | StageResult.report t _ => t
        | StageResult.interrupt => thresholdReached
      let reason := match res with
        | StageResult.report _ r => r
        | StageResult.interrupt => "User interrupt."
      CoreEvent.runStage stage :: CoreEvent.stageReason stage reason ::
      CoreEvent.restoreBest stage :: CoreEvent.endStage stage ::
      (if tr || powerThrough then
         CoreEvent.advanceTo (stage + 1) :: runCoreAux powerThrough rest (stage + 1) tr
       else [CoreEvent.haltAt stage, CoreEvent.reportHistory])

/-- The event trace of `TrainingLoop._run_core`: stages are numbered from 1
and `threshold_reached` starts out `True`. -/
def runCore (powerThrough : Bool) (stages : List StageResult) : List CoreEvent :=
  runCoreAux powerThrough stages 1 true

/-! ## RegisterSpec packing and unpacking (`dps/register.py`, lines 117-158)

Arrays are batch-major rational matrices (`List (List ℚ)`: one inner list
per batch row).  A register bank is the positional tuple of per-register
matrices, in declaration order — the form `get_register_values`' positional
fallback resolves each register name to.  `widths` records, per register,
`shape[1]` of `shapes()`, i.e. the first dimension of the register's
initial-value shape, which `from_obs` turns into the cumulative split
locations. -/

structure RegisterSpec where
  names : List String
  widths : List ℕ
  visible : List Bool

/-- `np.concatenate(values, axis=1)` over batch-major matrices;
`get_register_values` returns the single value unconcatenated when only one
register is requested. -/
def concatObs : List (List (List ℚ)) → List (List ℚ)
  | [] => []
  | [m] => m
  | m :: rest => List.zipWith (· ++ ·) m (concatObs rest)

/-- `RegisterSpec.as_obs(registers, visible_only=False, axis=1)`, on the
positional bank representation: the name lookup yields the per-register
matrices in declaration order, which are then concatenated along axis 1. -/
def RegisterSpec.as_obs (_spec : RegisterSpec) (bank : List (List (List ℚ))) :
    List (List ℚ) :=
  concatObs bank

/-- `np.split(obs, split_locs[:-1], axis=1)`: the first `len(widths) - 1`
pieces take their declared widths, the last piece takes everything that
remains. -/
def fromObsAux : List ℕ → List (List ℚ) → List (List (List ℚ))
  | [], obs => [obs]
  | [_], obs => [obs]
  | w :: ws, obs => obs.map (List.take w) :: fromObsAux ws (obs.map (List.drop w))

/-- `RegisterSpec.from_obs(obs, axis=1)`. -/
def RegisterSpec.from_obs (spec : RegisterSpec) (obs : List (List ℚ)) :
    List (List (List ℚ)) :=
  fromObsAux spec.widths obs

/-! ## RegisterSpec initial values (`dps/register.py`, lines 48-72)

`get_initial_values(np_random, **kwargs)` walks the registers in order: an
override from `kwargs` wins, a fixed ndarray is copied, and a
`(shape, init_fn)` pair calls `init_fn(shape, np_random)` — the shared
mutable `RandomState` is modelled as an explicitly threaded seed.
`instantiate(batch_size, np_random, **kwargs)` draws `batch_size` whole
initial-value lists and concatenates them register-wise along axis 0. -/

inductive InitialValue where
  | fixed (value : List (List ℚ))
  | sampled (shape : List ℕ) (f : List ℕ → ℕ → (List (List ℚ) × ℕ))

/-- `RegisterSpec.get_initial_values`, returning the per-register values in
declaration order together with the advanced RNG state. -/
def getInitialValues :
    List (String × InitialValue) → (String → Option (List (List ℚ))) → ℕ →
    List (List (List ℚ)) × ℕ
  | [], _, rng => ([], rng)
  | (n, iv) :: rest, ov, rng =>
      let hd : List (List ℚ) × ℕ :=
        match ov n with
        | some v => (v, rng)
        | none =>
            match iv with
            | InitialValue.fixed v => (v, rng)
            | InitialValue.sampled shape f => f shape rng
      let tl := getInitialValues rest ov hd.2
      (hd.1 :: tl.1, tl.2)

/-- The list comprehension
`[self.get_initial_values(np_random, **kwargs) for i in range(batch_size)]`:
one whole `get_initial_values` call per batch element, sharing (threading)
the RNG. -/
def instantiateDraws (regs : List (String × InitialValue))
    (ov : String → Option (List (List ℚ))) :
    ℕ → ℕ → List (List (List (List ℚ))) × ℕ
  | 0, rng => ([], rng)
  | n + 1, rng =>
      let d := getInitialValues regs ov rng
      let rest := instantiateDraws regs ov n d.2
      (d.1 :: rest.1, rest.2)

/-- Python `zip(*values)`, truncating to the shortest inner list. -/
def pyZipStar {α : Type} : List (List α) → List (List α)
  | [] => []
  | [l] => l.map (fun x => [x])
  | l :: rest => List.zipWith (fun x xs => x :: xs) l (pyZipStar rest)

/-- `RegisterSpec.instantiate(batch_size, np_random, **kwargs)`:
`values = [get_initial_values(...) for i in range(batch_size)]`, then
`values = [np.concatenate(v, axis=0) for v in zip(*values)]` (axis-0
concatenation of batch-major matrices appends their rows). -/
def instantiate (regs : List (String × InitialValue))
    (ov : String → Option (List (List ℚ))) (batch_size rng : ℕ) :
    List (List (List ℚ)) × ℕ :=
  let draws := instantiateDraws regs ov batch_size rng
  ((pyZipStar draws.1).map List.flatten, draws.2)

/-- The RNG state after `i` whole `get_initial_values` calls. -/
def rngAfter (regs : List (String × InitialValue))
    (ov : String → Option (List (List ℚ))) : ℕ → ℕ → ℕ
  | 0, rng => rng
  | i + 1, rng => rngAfter regs ov i (getInitialValues regs ov rng).2

/-! ## GridArithmetic.build_step accumulator update
(`dps/envs/grid_arithmetic.py`, lines 488-495 and 678-709)

Registers and action activations are rationals.  The arithmetic-operator
table is `GridArithmetic.arithmetic_actions_dict`; the configured operator
names, in the `sorted(self.arithmetic_actions)` order used by `build_step`,
parameterise the step.  `build_step` starts from `acc = 0` and
`original_factor = 1`, folds every configured operator's effect weighted by
its activation while draining `original_factor`, adds the carried-over
share of the previous accumulator, and clips to [-1000, 1000]. -/

def clipByValue (lo hi x : ℚ) : ℚ := min (max x lo) hi

/-- `GridArithmetic.arithmetic_actions_dict` (division is exact rational
division here, standing in for the float division of the source). -/
def arithmeticActionsDict (key : String) : ℚ → ℚ → ℚ :=
  if key = "+" then fun acc digit => acc + digit
  else if key = "-" then fun acc digit => acc - digit
  else if key = "*" then fun acc digit => acc * digit
  else if key = "/" then fun acc digit => acc / digit
  else if key = "max" then fun acc digit => max acc digit
  else if key = "min" then fun acc digit => min acc digit
  else if key = "+1" then fun acc _ => acc + 1
  else if key = "-1" then fun acc _ => acc - 1
  else fun _ _ => 0

/-- The `for key, action in zip(sorted(self.arithmetic_actions),
arithmetic_actions)` loop, accumulating `(original_factor, acc)`. -/
def accFold (accPrev digitPrev : ℚ) (l : List (String × ℚ)) (p : ℚ × ℚ) : ℚ × ℚ :=
  l.foldl
    (fun q ka =>
      (q.1 - ka.2, q.2 + ka.2 * arithmeticActionsDict ka.1 accPrev digitPrev))
    p

/-- The accumulator component of `GridArithmetic.build_step`: `keys` is the
sorted list of configured operator names, `arith` the matching slice of
action activations. -/
def buildStepAcc (keys : List String) (accPrev digitPrev : ℚ) (arith : List ℚ) : ℚ :=
  let p := accFold accPrev digitPrev (keys.zip arith) (1, 0)
  clipByValue (-1000) 1000 (p.2 + p.1 * accPrev)

/-- Modelled from the spec: `InternalEnv.unpack_actions` (defined in
`dps/environment.py`'s `InternalEnv`, which is not part of this source
snapshot) splits the flat action vector into one named scalar component per
entry of `action_names`, in that fixed order.  For `GridArithmetic`,
`action_names` is the six fixed actions `['>', '<', 'v', '^',
'classify_digit', 'classify_op']`, then `'update_salience'`, then the
sorted arithmetic-operator names — so the arithmetic activations are the
components from index 7 on. -/
def unpackArithActions (a : List ℚ) : List ℚ := a.drop 7

/-- `GridArithmetic.build_step` restricted to the `acc` register. -/
def gridBuildStepAcc (keys : List String) (accPrev digitPrev : ℚ) (a : List ℚ) : ℚ :=
  buildStepAcc keys accPrev digitPrev (unpackArithActions a)

end DPS

namespace DPS

/-! ### Theorems -/

/-- C10: `EarlyStopHook.check` records a new best only for a strictly smaller
validation loss (a loss equal to the current best is not a new best), and it
signals stop only when the steps elapsed since the (possibly just updated)
best step strictly exceed the patience. -/
theorem earlyStopHook_check_strict (h : EarlyStopHook) (loss : ℚ) (bv : ℚ) (s : ℤ)
    (hbv : h.best_value = some bv) (hbs : h.best_value_step = some s) :
    ∃ nb st h', h.check loss = some ((nb, st), h') ∧
      (nb = true ↔ loss < bv) ∧
      (st = true ↔ h.patience < h.step - (if loss < bv then h.step else s)) := by
  by_cases hlt : loss < bv <;>
    simp [EarlyStopHook.check, hbv, hbs, hlt] <;> omega

/-- Witness for C10: with best value `3` at step `1`, current step `5`,
patience `2`: a validation loss equal to the best (`3`) is not a new best,
and the hook stops since `5 - 1 > 2`. -/
theorem earlyStopHook_check_strict_witness :
    ∃ nb st h',
      EarlyStopHook.check ⟨2, false, some 1, some 3, 5⟩ 3 = some ((nb, st), h') ∧
      (nb = true ↔ (3 : ℚ) < 3) ∧
      (st = true ↔ (2 : ℤ) < 5 - (if (3 : ℚ) < 3 then (5 : ℤ) else 1)) :=
  earlyStopHook_check_strict ⟨2, false, some 1, some 3, 5⟩ 3 3 1 rfl rfl

lemma lookup_append {α β : Type} [BEq α] (k : α) (l1 l2 : List (α × β)) :
    (l1 ++ l2).lookup k =
      (match l1.lookup k with
       | some v => some v
       | none => l2.lookup k) := by
  induction l1 with
  | nil => simp
  | cons p rest ih =>
      cases p with
      | mk a b =>
          cases hba : (k == a) <;> simp [List.lookup, hba, ih]

lemma underlying_postprocess (grad masked : Bool) (sig : Tensor) :
    (postprocessSignal grad masked sig).underlying = sig.underlying := by
  unfold postprocessSignal
  by_cases hm : (masked && decide (2 ≤ sig.rank)) = true <;>
    by_cases hg : grad = true <;>
      simp [hm, hg, Tensor.underlying]

lemma signalStep_gen_none (st : SignalContext) (c : SignalCall)
    (hg : c.generator = none) : signalStep st c = st := by
  unfold signalStep getSignal retrieveSignal
  rw [hg]
  cases hl : List.lookup c.key st.signals <;> simp [hl]

lemma signalStep_hit (st : SignalContext) (c : SignalCall) (g : Generator) (t : Tensor)
    (hg : c.generator = some g)
    (hl : List.lookup (signalFullKey g.genKey c.key c.kwargs) st.signals = some t) :
    signalStep st c = st := by
  unfold signalStep getSignal retrieveSignal
  rw [hg]
  simp [hl]

lemma signalStep_miss (st : SignalContext) (c : SignalCall) (g : Generator)
    (hg : c.generator = some g)
    (hl : List.lookup (signalFullKey g.genKey c.key c.kwargs) st.signals = none) :
    signalStep st c =
      ⟨st.signals ++ [(signalFullKey g.genKey c.key c.kwargs, Tensor.atom st.nextId g.outRank)],
       st.nextId + 1,
       st.genLog ++ [signalFullKey g.genKey c.key c.kwargs]⟩ := by
  unfold signalStep getSignal retrieveSignal Generator.generateSignal
  rw [hg]
  simp [hl]

lemma signalInv_step (st : SignalContext) (c : SignalCall) (h : SignalInv st) :
    SignalInv (signalStep st c) := by
  cases hg : c.generator with
  | none => rw [signalStep_gen_none st c hg]; exact h
  | some g =>
      cases hl : List.lookup (signalFullKey g.genKey c.key c.kwargs) st.signals with
      | some t => rw [signalStep_hit st c g t hg hl]; exact h
      | none =>
          rw [signalStep_miss st c g hg hl]
          obtain ⟨hnd, hmem⟩ := h
          have hfk : signalFullKey g.genKey c.key c.kwargs ∉ st.genLog := by
            intro hin
            have := hmem _ hin
            rw [hl] at this
            simp at this
          constructor
          · simp [List.nodup_append, hnd, hfk]
          · intro k hk
            simp only [List.mem_append, List.mem_singleton] at hk
            rw [lookup_append]
            rcases hk with hk | hk
            · have := hmem _ hk
              cases hl2 : List.lookup k st.signals
              · rw [hl2] at this; simp at this
              · simp
            · subst hk
              rw [hl]
              simp [List.lookup]

lemma signalInv_run (calls : List SignalCall) :
    ∀ st : SignalContext, SignalInv st → SignalInv (runSignalCalls st calls) := by
  induction calls with
  | nil => intro st h; exact h
  | cons c cs ih =>
      intro st h
      exact ih (signalStep st c) (signalInv_step st c h)

lemma getSignal_pair (st : SignalContext) (key : String) (g : Generator)
    (kwargs : List (String × String)) (grad masked : Bool) :
    ∃ t1 st1,
      getSignal st key (some g) kwargs grad masked true = some (t1, st1) ∧
      getSignal st1 key (some g) kwargs grad masked true = some (t1, st1) ∧
      st1.genLog.count (signalFullKey g.genKey key kwargs) ≤
        st.genLog.count (signalFullKey g.genKey key kwargs) + 1 := by
  cases hl : List.lookup (signalFullKey g.genKey key kwargs) st.signals with
  | some t =>
      refine ⟨postprocessSignal grad masked t, st, ?_, ?_, ?_⟩ <;>
        simp [getSignal, retrieveSignal, hl]
  | none =>
      refine ⟨postprocessSignal grad masked (Tensor.atom st.nextId g.outRank),
        ⟨st.signals ++ [(signalFullKey g.genKey key kwargs, Tensor.atom st.nextId g.outRank)],
         st.nextId + 1, st.genLog ++ [signalFullKey g.genKey key kwargs]⟩, ?_, ?_, ?_⟩
      · simp [getSignal, retrieveSignal, Generator.generateSignal, hl]
      · have hl2 : List.lookup (signalFullKey g.genKey key kwargs)
            (st.signals ++ [(signalFullKey g.genKey key kwargs,
              Tensor.atom st.nextId g.outRank)]) =
            some (Tensor.atom st.nextId g.outRank) := by
          rw [lookup_append, hl]
          simp [List.lookup]
        simp [getSignal, retrieveSignal, hl2]
      · simp

/-- C1: two memoized `get_signal` calls with the same
`(generator, key, kwargs)` combination return the same underlying tensor;
across any sequence of memoized calls each combination is generated at most
once per context lifetime (the generation log stays duplicate-free); with
`memoize := false` the generator builds a fresh tensor on each call. -/
theorem rlContext_getSignal_memoization (st : SignalContext) (key : String)
    (g : Generator) (kwargs : List (String × String)) (grad masked : Bool)
    (hinv : SignalInv st) :
    (∃ t1 st1,
      getSignal st key (some g) kwargs grad masked true = some (t1, st1) ∧
      getSignal st1 key (some g) kwargs grad masked true = some (t1, st1) ∧
      st1.genLog.count (signalFullKey g.genKey key kwargs) ≤
        st.genLog.count (signalFullKey g.genKey key kwargs) + 1) ∧
    (∀ calls : List SignalCall, (runSignalCalls st calls).genLog.Nodup) ∧
    (∀ t1 st1 t2 st2,
      getSignal st key (some g) kwargs grad masked false = some (t1, st1) →
      getSignal st1 key (some g) kwargs grad masked false = some (t2, st2) →
      t1.underlying ≠ t2.underlying) := by
  refine ⟨getSignal_pair st key g kwargs grad masked, ?_, ?_⟩
  · intro calls
    exact (signalInv_run calls st hinv).1
  · intro t1 st1 t2 st2 h1 h2
    simp only [getSignal, retrieveSignal, Generator.generateSignal, if_neg,
      Bool.false_eq_true, not_false_iff, Option.map_some] at h1 h2
    obtain ⟨ht1, hst1⟩ := Prod.mk.injEq .. ▸ (Option.some.injEq .. ▸ h1)
    obtain ⟨ht2, _⟩ := Prod.mk.injEq .. ▸ (Option.some.injEq .. ▸ h2)
    subst ht1 ht2
    rw [underlying_postprocess, underlying_postprocess]
    rw [← hst1]
    simp [Tensor.underlying]

/-- Witness for C1: a fresh context with an empty cache, requesting signal
`"advantage"` from a generator hashed as `"g1"`. -/
theorem rlContext_getSignal_memoization_witness :
    (∃ t1 st1,
      getSignal ⟨[], 0, []⟩ "advantage" (some ⟨"g1", 3⟩) [] false true true = some (t1, st1) ∧
      getSignal st1 "advantage" (some ⟨"g1", 3⟩) [] false true true = some (t1, st1) ∧
      st1.genLog.count (signalFullKey "g1" "advantage" []) ≤
        List.count (signalFullKey "g1" "advantage" []) [] + 1) ∧
    (∀ calls : List SignalCall,
      (runSignalCalls ⟨[], 0, []⟩ calls).genLog.Nodup) ∧
    (∀ t1 st1 t2 st2,
      getSignal ⟨[], 0, []⟩ "advantage" (some ⟨"g1", 3⟩) [] false true false = some (t1, st1) →
      getSignal st1 "advantage" (some ⟨"g1", 3⟩) [] false true false = some (t2, st2) →
      t1.underlying ≠ t2.underlying) :=
  rlContext_getSignal_memoization ⟨[], 0, []⟩ "advantage" ⟨"g1", 3⟩ [] false true
    ⟨List.nodup_nil, by intro k hk; simp at hk⟩

/-- C9: `get_signal` applies the reward-mask multiplication only when the
retrieved signal has rank at least 2; for a rank-0 or rank-1 signal the
default `masked = true` is silently ignored and the call returns exactly
what the unmasked call returns. -/
theorem rlContext_getSignal_mask_rank (st : SignalContext) (key : String)
    (gen : Option Generator) (kwargs : List (String × String)) (grad memoize : Bool)
    (r : Tensor) (st1 : SignalContext)
    (hr : retrieveSignal st key gen kwargs memoize = some (r, st1)) :
    getSignal st key gen kwargs grad true memoize =
      some (postprocessSignal grad true r, st1) ∧
    (2 ≤ r.rank →
      postprocessSignal grad true r =
        (if grad then Tensor.maskMul r else Tensor.stopGradient (Tensor.maskMul r))) ∧
    (r.rank ≤ 1 →
      getSignal st key gen kwargs grad true memoize =
        getSignal st key gen kwargs grad false memoize ∧
      postprocessSignal grad true r = (if grad then r else Tensor.stopGradient r)) := by
  refine ⟨?_, ?_, ?_⟩
  · simp [getSignal, hr]
  · intro h2
    cases grad <;> simp [postprocessSignal, h2]
  · intro h1
    have hnot : ¬ (2 ≤ r.rank) := by omega
    constructor
    · simp [getSignal, hr, postprocessSignal, hnot]
    · cases grad <;> simp [postprocessSignal, hnot]

/-- Witness for C9: the rank-1 core signal `"mu_exploration"`-like tensor is
returned unmasked even though `masked` defaults to true. -/
theorem rlContext_getSignal_mask_rank_witness :
    getSignal ⟨[("exploration", Tensor.atom 0 1)], 5, []⟩ "exploration" none [] false true true =
      some (postprocessSignal false true (Tensor.atom 0 1),
            ⟨[("exploration", Tensor.atom 0 1)], 5, []⟩) ∧
    (2 ≤ (Tensor.atom 0 1).rank →
      postprocessSignal false true (Tensor.atom 0 1) =
        (if false then Tensor.maskMul (Tensor.atom 0 1)
         else Tensor.stopGradient (Tensor.maskMul (Tensor.atom 0 1)))) ∧
    ((Tensor.atom 0 1).rank ≤ 1 →
      getSignal ⟨[("exploration", Tensor.atom 0 1)], 5, []⟩ "exploration" none [] false true true =
        getSignal ⟨[("exploration", Tensor.atom 0 1)], 5, []⟩ "exploration" none [] false false true ∧
      postprocessSignal false true (Tensor.atom 0 1) =
        (if false then Tensor.atom 0 1 else Tensor.stopGradient (Tensor.atom 0 1))) :=
  rlContext_getSignal_mask_rank ⟨[("exploration", Tensor.atom 0 1)], 5, []⟩
    "exploration" none [] false true (Tensor.atom 0 1)
    ⟨[("exploration", Tensor.atom 0 1)], 5, []⟩ rfl


lemma offPolicyLoop_mem (getBatch : ℕ → Option ℕ) :
    ∀ (n i : ℕ) (e : UpdateEvent), e ∈ offPolicyLoop getBatch n i →
      ∃ j, e = UpdateEvent.offPolicyPhase j ∧ i ≤ j := by
  intro n
  induction n with
  | zero => intro i e h; simp [offPolicyLoop] at h
  | succ m ih =>
      intro i e h
      unfold offPolicyLoop at h
      cases hb : getBatch i with
      | none => rw [hb] at h; simp at h
      | some b =>
          rw [hb] at h
          rcases List.mem_cons.mp h with h | h
          · exact ⟨i, h, le_refl i⟩
          · obtain ⟨j, hj, hij⟩ := ih (i + 1) e h
            exact ⟨j, hj, by omega⟩

lemma offPolicyLoop_length_le (getBatch : ℕ → Option ℕ) :
    ∀ (n i : ℕ), (offPolicyLoop getBatch n i).length ≤ n := by
  intro n
  induction n with
  | zero => intro i; simp [offPolicyLoop]
  | succ m ih =>
      intro i
      unfold offPolicyLoop
      cases hb : getBatch i with
      | none => simp
      | some b => simpa using ih (i + 1)

lemma offPolicyLoop_length_stop (getBatch : ℕ → Option ℕ) :
    ∀ (n i j : ℕ), j < n → getBatch (i + j) = none →
      (∀ k, k < j → (getBatch (i + k)).isSome = true) →
      (offPolicyLoop getBatch n i).length = j := by
  intro n
  induction n with
  | zero => intro i j hj; omega
  | succ m ih =>
      intro i j hj hnone hsome
      unfold offPolicyLoop
      cases j with
      | zero =>
          simp only [Nat.add_zero] at hnone
          simp [hnone]
      | succ j' =>
          have h0 : (getBatch i).isSome = true := by
            have := hsome 0 (by omega)
            simpa using this
          cases hb : getBatch i with
          | none => rw [hb] at h0; simp at h0
          | some b =>
              simp only [List.length_cons]
              have : (offPolicyLoop getBatch m (i + 1)).length = j' := by
                apply ih (i + 1) j' (by omega)
                · have : i + 1 + j' = i + (j' + 1) := by omega
                  rw [this]; exact hnone
                · intro k hk
                  have : i + 1 + k = i + (k + 1) := by omega
                  rw [this]
                  exact hsome (k + 1) (by omega)
              omega

/-- C3: in an `RLContext.update` call with a replay buffer set and on-policy
updates enabled, the rollouts are collected and the on-policy update runs
strictly before the rollouts are added to the buffer, which in turn happens
before every off-policy update; at most `replay_updates_per_sample`
off-policy updates run; and as soon as `get_batch` returns `None` the
remaining off-policy updates are skipped, the call still returning a
complete trace rather than an error. -/
theorem rlContext_update_schedule (c : UpdateConfig) (getBatch : ℕ → Option ℕ)
    (hop : c.on_policy_updates = true) :
    ∃ offs : List UpdateEvent,
      rlUpdate c true getBatch =
        UpdateEvent.collectRollouts :: UpdateEvent.trainPhase true ::
          UpdateEvent.addRollouts :: offs ∧
      (∀ e ∈ offs, ∃ j, e = UpdateEvent.offPolicyPhase j) ∧
      offs.length ≤ c.replay_updates_per_sample ∧
      (∀ j, j < c.replay_updates_per_sample → getBatch j = none →
        (∀ k, k < j → (getBatch k).isSome = true) → offs.length = j) := by
  refine ⟨offPolicyLoop getBatch c.replay_updates_per_sample 0, ?_, ?_, ?_, ?_⟩
  · simp [rlUpdate, hop]
  · intro e he
    obtain ⟨j, hj, _⟩ := offPolicyLoop_mem getBatch _ _ e he
    exact ⟨j, hj⟩
  · exact offPolicyLoop_length_le getBatch _ _
  · intro j hj hnone hsome
    exact offPolicyLoop_length_stop getBatch _ 0 j hj (by simpa using hnone)
      (fun k hk => by simpa using hsome k hk)

/-- Witness for C3: ratio 3, with the buffer able to supply exactly one
batch before running dry. -/
theorem rlContext_update_schedule_witness :
    ∃ offs : List UpdateEvent,
      rlUpdate ⟨3, true⟩ true (fun i => if i < 1 then some 0 else none) =
        UpdateEvent.collectRollouts :: UpdateEvent.trainPhase true ::
          UpdateEvent.addRollouts :: offs ∧
      (∀ e ∈ offs, ∃ j, e = UpdateEvent.offPolicyPhase j) ∧
      offs.length ≤ 3 ∧
      (∀ j, j < 3 → (if j < 1 then some 0 else none) = (none : Option ℕ) →
        (∀ k, k < j → (if k < 1 then (some 0 : Option ℕ) else none).isSome = true) →
        offs.length = j) :=
  rlContext_update_schedule ⟨3, true⟩ (fun i => if i < 1 then some 0 else none) rfl


lemma runCoreAux_runStage_lower (pt : Bool) :
    ∀ (rest : List StageResult) (stage : ℕ) (tr : Bool) (s : ℕ),
      CoreEvent.runStage s ∈ runCoreAux pt rest stage tr → stage ≤ s := by
  intro rest
  induction rest with
  | nil => intro stage tr s h; simp [runCoreAux] at h
  | cons res rest ih =>
      intro stage tr s h
      cases res with
      | report t r =>
          simp only [runCoreAux, List.mem_cons] at h
          rcases h with h | h | h | h | h
          · simp at h; omega
          · simp at h
          · simp at h
          · simp at h
          · split at h
            · rcases List.mem_cons.mp h with h | h
              · simp at h
              · have := ih (stage + 1) t s h; omega
            · simp at h
      | interrupt =>
          simp only [runCoreAux, List.mem_cons] at h
          rcases h with h | h | h | h | h
          · simp at h; omega
          · simp at h
          · simp at h
          · simp at h
          · split at h
            · rcases List.mem_cons.mp h with h | h
              · simp at h
              · have := ih (stage + 1) tr s h; omega
            · simp at h

lemma runCoreAux_haltAt_lower (pt : Bool) :
    ∀ (rest : List StageResult) (stage : ℕ) (tr : Bool) (k : ℕ),
      CoreEvent.haltAt k ∈ runCoreAux pt rest stage tr → stage ≤ k := by
  intro rest
  induction rest with
  | nil => intro stage tr k h; simp [runCoreAux] at h
  | cons res rest ih =>
      intro stage tr k h
      cases res with
      | report t r =>
          simp only [runCoreAux, List.mem_cons] at h
          rcases h with h | h | h | h | h
          · simp at h
          · simp at h
          · simp at h
          · simp at h
          · split at h
            · rcases List.mem_cons.mp h with h | h
              · simp at h
              · have := ih (stage + 1) t k h; omega
            · simp at h
              omega
      | interrupt =>
          simp only [runCoreAux, List.mem_cons] at h
          rcases h with h | h | h | h | h
          · simp at h
          · simp at h
          · simp at h
          · simp at h
          · split at h
            · rcases List.mem_cons.mp h with h | h
              · simp at h
              · have := ih (stage + 1) tr k h; omega
            · simp at h
              omega

lemma runCoreAux_endsWithReport (pt : Bool) :
    ∀ (rest : List StageResult) (stage : ℕ) (tr : Bool),
      ∃ l, runCoreAux pt rest stage tr = l ++ [CoreEvent.reportHistory] := by
  intro rest
  induction rest with
  | nil =>
      intro stage tr
      exact ⟨[CoreEvent.curriculumComplete (stage - 1)], rfl⟩
  | cons res rest ih =>
      intro stage tr
      cases res with
      | report t r =>
          by_cases hc : (t || pt) = true
          · obtain ⟨l, hl⟩ := ih (stage + 1) t
            refine ⟨CoreEvent.runStage stage :: CoreEvent.stageReason stage r ::
              CoreEvent.restoreBest stage :: CoreEvent.endStage stage ::
              CoreEvent.advanceTo (stage + 1) :: l, ?_⟩
            simp [runCoreAux, hc, hl]
          · refine ⟨[CoreEvent.runStage stage, CoreEvent.stageReason stage r,
              CoreEvent.restoreBest stage, CoreEvent.endStage stage,
              CoreEvent.haltAt stage], ?_⟩
            simp [runCoreAux, hc]
      | interrupt =>
          by_cases hc : (tr || pt) = true
          · obtain ⟨l, hl⟩ := ih (stage + 1) tr
            refine ⟨CoreEvent.runStage stage ::
              CoreEvent.stageReason stage "User interrupt." ::
              CoreEvent.restoreBest stage :: CoreEvent.endStage stage ::
              CoreEvent.advanceTo (stage + 1) :: l, ?_⟩
            simp [runCoreAux, hc, hl]
          · refine ⟨[CoreEvent.runStage stage,
              CoreEvent.stageReason stage "User interrupt.",
              CoreEvent.restoreBest stage, CoreEvent.endStage stage,
              CoreEvent.haltAt stage], ?_⟩
            simp [runCoreAux, hc]


lemma runCoreAux_stage_spec (pt : Bool) :
    ∀ (rest : List StageResult) (stage : ℕ) (tr : Bool) (s : ℕ),
      CoreEvent.runStage s ∈ runCoreAux pt rest stage tr →
      CoreEvent.restoreBest s ∈ runCoreAux pt rest stage tr ∧
      CoreEvent.endStage s ∈ runCoreAux pt rest stage tr ∧
      (∀ t2 r2, rest[s - stage]? = some (StageResult.report t2 r2) →
        CoreEvent.stageReason s r2 ∈ runCoreAux pt rest stage tr ∧
        (CoreEvent.advanceTo (s + 1) ∈ runCoreAux pt rest stage tr ↔
          (t2 = true ∨ pt = true)) ∧
        (CoreEvent.haltAt s ∈ runCoreAux pt rest stage tr ↔
          (t2 = false ∧ pt = false))) ∧
      (rest[s - stage]? = some StageResult.interrupt →
        CoreEvent.stageReason s "User interrupt." ∈ runCoreAux pt rest stage tr) := by
  intro rest
  induction rest with
  | nil => intro stage tr s h; simp [runCoreAux] at h
  | cons res rest ih =>
      intro stage tr s h
      rcases hres : res with ⟨t, rsn⟩ | _ <;> subst hres
      · -- normally completed stage at the head of the remaining curriculum
        by_cases hc : (t || pt) = true
        · have hE : runCoreAux pt (StageResult.report t rsn :: rest) stage tr =
              CoreEvent.runStage stage :: CoreEvent.stageReason stage rsn ::
              CoreEvent.restoreBest stage :: CoreEvent.endStage stage ::
              CoreEvent.advanceTo (stage + 1) :: runCoreAux pt rest (stage + 1) t := by
            simp [runCoreAux, hc]
          rw [hE] at h ⊢
          simp only [List.mem_cons] at h
          rcases h with h | h | h | h | h | h
          all_goals try simp at h
          · -- s = stage
            subst h
            refine ⟨by simp, by simp, ?_, ?_⟩
            · intro t2 r2 hr
              simp only [Nat.sub_self, List.getElem?_cons_zero, Option.some.injEq,
                StageResult.report.injEq] at hr
              obtain ⟨ht2, hr2⟩ := hr
              subst ht2; subst hr2
              refine ⟨by simp, ?_, ?_⟩
              · refine iff_of_true (by simp) ?_
                rcases Bool.or_eq_true_iff.mp hc with h2 | h2
                · exact Or.inl h2
                · exact Or.inr h2
              · refine iff_of_false ?_ ?_
                · intro h2
                  simp only [List.mem_cons] at h2
                  rcases h2 with h2 | h2 | h2 | h2 | h2 | h2
                  all_goals try simp at h2
                  have := runCoreAux_haltAt_lower pt rest (s + 1) t s h2
                  omega
                · intro ⟨h1, h2⟩
                  subst h1; subst h2
                  simp at hc
            · intro hr
              simp at hr
          · -- s is a later stage, run inside the recursion
            have hlow := runCoreAux_runStage_lower pt rest (stage + 1) t s h
            have hidx : s - stage = (s - (stage + 1)) + 1 := by omega
            obtain ⟨ihr, ihe, ihrep, ihint⟩ := ih (stage + 1) t s h
            refine ⟨by simp [ihr], by simp [ihe], ?_, ?_⟩
            · intro t2 r2 hr
              rw [hidx, List.getElem?_cons_succ] at hr
              obtain ⟨ihs, ihadv, ihhalt⟩ := ihrep t2 r2 hr
              refine ⟨by simp [ihs], ?_, ?_⟩
              · rw [← ihadv]
                constructor
                · intro h2
                  simp only [List.mem_cons] at h2
                  rcases h2 with h2 | h2 | h2 | h2 | h2 | h2
                  all_goals try simp at h2
                  · omega
                  · exact h2
                · intro h2
                  simp [h2]
              · rw [← ihhalt]
                constructor
                · intro h2
                  simp only [List.mem_cons] at h2
                  rcases h2 with h2 | h2 | h2 | h2 | h2 | h2
                  all_goals try simp at h2
                  exact h2
                · intro h2
                  simp [h2]
            · intro hr
              rw [hidx, List.getElem?_cons_succ] at hr
              simp [ihint hr]
        · have hE : runCoreAux pt (StageResult.report t rsn :: rest) stage tr =
              [CoreEvent.runStage stage, CoreEvent.stageReason stage rsn,
               CoreEvent.restoreBest stage, CoreEvent.endStage stage,
               CoreEvent.haltAt stage, CoreEvent.reportHistory] := by
            simp [runCoreAux, hc]
          rw [hE] at h ⊢
          simp only [List.mem_cons] at h
          rcases h with h | h | h | h | h | h | h
          all_goals try simp at h
          subst h
          refine ⟨by simp, by simp, ?_, ?_⟩
          · intro t2 r2 hr
            simp only [Nat.sub_self, List.getElem?_cons_zero, Option.some.injEq,
              StageResult.report.injEq] at hr
            obtain ⟨ht2, hr2⟩ := hr
            subst ht2; subst hr2
            refine ⟨by simp, ?_, ?_⟩
            · refine iff_of_false (by simp) ?_
              intro h2
              rcases h2 with h2 | h2 <;> simp [h2] at hc
            · refine iff_of_true (by simp) ?_
              simp only [Bool.or_eq_true] at hc
              push_neg at hc
              exact ⟨Bool.not_eq_true _ ▸ hc.1, Bool.not_eq_true _ ▸ hc.2⟩
          · intro hr
            simp at hr
      · -- interrupted stage at the head of the remaining curriculum
        by_cases hc : (tr || pt) = true
        · have hE : runCoreAux pt (StageResult.interrupt :: rest) stage tr =
              CoreEvent.runStage stage ::
              CoreEvent.stageReason stage "User interrupt." ::
              CoreEvent.restoreBest stage :: CoreEvent.endStage stage ::
              CoreEvent.advanceTo (stage + 1) :: runCoreAux pt rest (stage + 1) tr := by
            simp [runCoreAux, hc]
          rw [hE] at h ⊢
          simp only [List.mem_cons] at h
          rcases h with h | h | h | h | h | h
          all_goals try simp at h
          · subst h
            refine ⟨by simp, by simp, ?_, ?_⟩
            · intro t2 r2 hr
              simp at hr
            · intro _
              simp
          · have hlow := runCoreAux_runStage_lower pt rest (stage + 1) tr s h
            have hidx : s - stage = (s - (stage + 1)) + 1 := by omega
            obtain ⟨ihr, ihe, ihrep, ihint⟩ := ih (stage + 1) tr s h
            refine ⟨by simp [ihr], by simp [ihe], ?_, ?_⟩
            · intro t2 r2 hr
              rw [hidx, List.getElem?_cons_succ] at hr
              obtain ⟨ihs, ihadv, ihhalt⟩ := ihrep t2 r2 hr
              refine ⟨by simp [ihs], ?_, ?_⟩
              · rw [← ihadv]
                constructor
                · intro h2
                  simp only [List.mem_cons] at h2
                  rcases h2 with h2 | h2 | h2 | h2 | h2 | h2
                  all_goals try simp at h2
                  · omega
                  · exact h2
                · intro h2
                  simp [h2]
              · rw [← ihhalt]
                constructor
                · intro h2
                  simp only [List.mem_cons] at h2
                  rcases h2 with h2 | h2 | h2 | h2 | h2 | h2
                  all_goals try simp at h2
                  exact h2
                · intro h2
                  simp [h2]
            · intro hr
              rw [hidx, List.getElem?_cons_succ] at hr
              simp [ihint hr]
        · have hE : runCoreAux pt (StageResult.interrupt :: rest) stage tr =
              [CoreEvent.runStage stage,
               CoreEvent.stageReason stage "User interrupt.",
               CoreEvent.restoreBest stage, CoreEvent.endStage stage,
               CoreEvent.haltAt stage, CoreEvent.reportHistory] := by
            simp [runCoreAux, hc]
          rw [hE] at h ⊢
          simp only [List.mem_cons] at h
          rcases h with h | h | h | h | h | h | h
          all_goals try simp at h
          subst h
          refine ⟨by simp, by simp, ?_, ?_⟩
          · intro t2 r2 hr
            simp at hr
          · intro _
            simp


/-- C4 counterexample: the claim "the loop advances to the next stage if and
only if that stage reported the validation-loss threshold reached or
`power_through` is set" fails on the code.  With `power_through = False`, if
stage 1 reports the threshold reached and stage 2 raises a user interrupt,
`threshold_reached` keeps its stale value from stage 1 and the loop advances
past stage 2 even though stage 2 reported nothing. -/
theorem trainingLoop_advance_iff_counterexample :
    CoreEvent.runStage 2 ∈
      runCore false [StageResult.report true "Validation loss threshold reached.",
        StageResult.interrupt] ∧
    ([StageResult.report true "Validation loss threshold reached.",
        StageResult.interrupt][2 - 1]? = some StageResult.interrupt) ∧
    CoreEvent.advanceTo 3 ∈
      runCore false [StageResult.report true "Validation loss threshold reached.",
        StageResult.interrupt] ∧
    CoreEvent.haltAt 2 ∉
      runCore false [StageResult.report true "Validation loss threshold reached.",
        StageResult.interrupt] := by
  refine ⟨?_, rfl, ?_, ?_⟩ <;> simp [runCore, runCoreAux]

/-- C4 (amended): after every stage the best checkpoint is restored, and for
a stage that completes normally (returns a `(threshold_reached, n_steps,
reason)` triple rather than being interrupted), the loop advances to the
next stage iff that stage reported the threshold reached or `power_through`
is set, and halts the whole run right after that stage otherwise. -/
theorem trainingLoop_stage_transition (pt : Bool) (stages : List StageResult)
    (s : ℕ) (t : Bool) (reason : String)
    (hrun : CoreEvent.runStage s ∈ runCore pt stages)
    (hstage : stages[s - 1]? = some (StageResult.report t reason)) :
    CoreEvent.restoreBest s ∈ runCore pt stages ∧
    CoreEvent.endStage s ∈ runCore pt stages ∧
    (CoreEvent.advanceTo (s + 1) ∈ runCore pt stages ↔ (t = true ∨ pt = true)) ∧
    (CoreEvent.haltAt s ∈ runCore pt stages ↔ (t = false ∧ pt = false)) := by
  obtain ⟨hr, he, hrep, _⟩ := runCoreAux_stage_spec pt stages 1 true s hrun
  obtain ⟨_, hadv, hhalt⟩ := hrep t reason hstage
  exact ⟨hr, he, hadv, hhalt⟩

/-- Witness for the amended C4: a two-stage curriculum with
`power_through = False` where stage 1 reaches the threshold and stage 2 does
not — stage 2's checkpoint is restored and the run halts at stage 2. -/
theorem trainingLoop_stage_transition_witness :
    CoreEvent.restoreBest 2 ∈
      runCore false [StageResult.report true "Validation loss threshold reached.",
        StageResult.report false "Early stopping triggered."] ∧
    CoreEvent.endStage 2 ∈
      runCore false [StageResult.report true "Validation loss threshold reached.",
        StageResult.report false "Early stopping triggered."] ∧
    (CoreEvent.advanceTo 3 ∈
      runCore false [StageResult.report true "Validation loss threshold reached.",
        StageResult.report false "Early stopping triggered."] ↔
      (false = true ∨ false = true)) ∧
    (CoreEvent.haltAt 2 ∈
      runCore false [StageResult.report true "Validation loss threshold reached.",
        StageResult.report false "Early stopping triggered."] ↔
      (false = false ∧ false = false)) :=
  trainingLoop_stage_transition false
    [StageResult.report true "Validation loss threshold reached.",
     StageResult.report false "Early stopping triggered."]
    2 false "Early stopping triggered."
    (by simp [runCore, runCoreAux]) rfl

/-- C7: a `KeyboardInterrupt` raised while a stage runs is caught by
`_run_core`: the stage's stop reason becomes "User interrupt.", the stage
is still wound down (best checkpoint restored, `end_stage` called), and the
interrupt never escapes the stage boundary — the run always ends by
reporting the accumulated history. -/
theorem trainingLoop_interrupt_graceful (pt : Bool) (stages : List StageResult)
    (s : ℕ)
    (hrun : CoreEvent.runStage s ∈ runCore pt stages)
    (hint : stages[s - 1]? = some StageResult.interrupt) :
    CoreEvent.stageReason s "User interrupt." ∈ runCore pt stages ∧
    CoreEvent.restoreBest s ∈ runCore pt stages ∧
    CoreEvent.endStage s ∈ runCore pt stages ∧
    ∃ l, runCore pt stages = l ++ [CoreEvent.reportHistory] := by
  obtain ⟨hr, he, _, hintc⟩ := runCoreAux_stage_spec pt stages 1 true s hrun
  exact ⟨hintc hint, hr, he, runCoreAux_endsWithReport pt stages 1 true⟩

/-- Witness for C7: a single-stage curriculum whose stage is interrupted. -/
theorem trainingLoop_interrupt_graceful_witness :
    CoreEvent.stageReason 1 "User interrupt." ∈
      runCore false [StageResult.interrupt] ∧
    CoreEvent.restoreBest 1 ∈ runCore false [StageResult.interrupt] ∧
    CoreEvent.endStage 1 ∈ runCore false [StageResult.interrupt] ∧
    ∃ l, runCore false [StageResult.interrupt] =
      l ++ [CoreEvent.reportHistory] :=
  trainingLoop_interrupt_graceful false [StageResult.interrupt] 1
    (by simp [runCore, runCoreAux]) rfl


lemma concatObs_length (B : ℕ) :
    ∀ bank : List (List (List ℚ)), bank ≠ [] → (∀ m ∈ bank, m.length = B) →
      (concatObs bank).length = B := by
  intro bank
  induction bank with
  | nil => intro h; exact absurd rfl h
  | cons m rest ih =>
      intro _ hlen
      cases rest with
      | nil => simpa [concatObs] using hlen m (by simp)
      | cons m2 rest2 =>
          have h1 : m.length = B := hlen m (by simp)
          have h2 : (concatObs (m2 :: rest2)).length = B :=
            ih (by simp) (fun x hx => hlen x (List.mem_cons_of_mem _ hx))
          simp [concatObs, h1, h2]

lemma zipAppend_map_take (w : ℕ) :
    ∀ (m C : List (List ℚ)), m.length ≤ C.length → (∀ row ∈ m, row.length = w) →
      (List.zipWith (· ++ ·) m C).map (List.take w) = m := by
  intro m
  induction m with
  | nil => intro C _ _; simp
  | cons r m' ih =>
      intro C hlen hrow
      cases C with
      | nil => simp at hlen
      | cons c C' =>
          have hr : r.length = w := hrow r (by simp)
          simp only [List.zipWith_cons_cons, List.map_cons, List.cons.injEq]
          constructor
          · rw [← hr, List.take_left]
          · exact ih C' (by simpa using hlen) (fun x hx => hrow x (List.mem_cons_of_mem _ hx))

lemma zipAppend_map_drop (w : ℕ) :
    ∀ (m C : List (List ℚ)), C.length ≤ m.length → (∀ row ∈ m, row.length = w) →
      (List.zipWith (· ++ ·) m C).map (List.drop w) = C := by
  intro m
  induction m with
  | nil =>
      intro C hlen _
      simp only [List.length_nil, Nat.le_zero, List.length_eq_zero] at hlen
      subst hlen
      simp
  | cons r m' ih =>
      intro C hlen hrow
      cases C with
      | nil => simp
      | cons c C' =>
          have hr : r.length = w := hrow r (by simp)
          simp only [List.zipWith_cons_cons, List.map_cons, List.cons.injEq]
          constructor
          · rw [← hr, List.drop_left]
          · exact ih C' (by simpa using hlen) (fun x hx => hrow x (List.mem_cons_of_mem _ hx))

lemma forall₂_bank_length (B : ℕ) :
    ∀ {bank : List (List (List ℚ))} {ws : List ℕ},
      List.Forall₂ (fun m w => m.length = B ∧ ∀ row ∈ m, row.length = w) bank ws →
      ∀ m ∈ bank, m.length = B := by
  intro bank ws h
  induction h with
  | nil => simp
  | cons h1 _ ih =>
      intro x hx
      rcases List.mem_cons.mp hx with hx | hx
      · subst hx; exact h1.1
      · exact ih x hx

/-- C2: for a bank whose register matrices have the spec's declared widths
and a common batch size, unpacking the concatenated observation recovers the
bank register by register, and hence
`as_obs (from_obs (as_obs bank)) = as_obs bank`. -/
theorem registerSpec_roundtrip (spec : RegisterSpec) (bank : List (List (List ℚ)))
    (B : ℕ)
    (hshape : List.Forall₂ (fun m w => m.length = B ∧ ∀ row ∈ m, row.length = w)
      bank spec.widths)
    (hne : bank ≠ []) :
    spec.from_obs (spec.as_obs bank) = bank ∧
    spec.as_obs (spec.from_obs (spec.as_obs bank)) = spec.as_obs bank := by
  have main : ∀ (bank : List (List (List ℚ))) (widths : List ℕ),
      List.Forall₂ (fun m w => m.length = B ∧ ∀ row ∈ m, row.length = w) bank widths →
      bank ≠ [] → fromObsAux widths (concatObs bank) = bank := by
    intro bank widths h
    induction h with
    | nil => intro h; exact absurd rfl h
    | @cons m w bank2 ws h1 h2 ih =>
        intro _
        cases h2 with
        | nil => simp [concatObs, fromObsAux]
        | @cons m2 w2 bank3 ws3 h3 h4 =>
            have hB : ∀ x ∈ m2 :: bank3, x.length = B :=
              forall₂_bank_length B (List.Forall₂.cons h3 h4)
            have hC : (concatObs (m2 :: bank3)).length = B :=
              concatObs_length B _ (by simp) hB
            have htake : (List.zipWith (· ++ ·) m (concatObs (m2 :: bank3))).map
                (List.take w) = m :=
              zipAppend_map_take w m _ (by rw [hC, h1.1]) h1.2
            have hdrop : (List.zipWith (· ++ ·) m (concatObs (m2 :: bank3))).map
                (List.drop w) = concatObs (m2 :: bank3) :=
              zipAppend_map_drop w m _ (by rw [hC, h1.1]) h1.2
            have hrec := ih (by simp)
            calc fromObsAux (w :: w2 :: ws3) (concatObs (m :: m2 :: bank3))
                = (List.zipWith (· ++ ·) m (concatObs (m2 :: bank3))).map (List.take w) ::
                  fromObsAux (w2 :: ws3)
                    ((List.zipWith (· ++ ·) m (concatObs (m2 :: bank3))).map (List.drop w)) := by
                  simp [concatObs, fromObsAux]
              _ = m :: fromObsAux (w2 :: ws3) (concatObs (m2 :: bank3)) := by
                  rw [htake, hdrop]
              _ = m :: (m2 :: bank3) := by rw [hrec]
  have h1 : spec.from_obs (spec.as_obs bank) = bank := main bank spec.widths hshape hne
  exact ⟨h1, by rw [h1]⟩

/-- Witness for C2: two registers of widths 1 and 2 over a batch of 2. -/
theorem registerSpec_roundtrip_witness :
    RegisterSpec.from_obs ⟨["acc", "glimpse"], [1, 2], [true, false]⟩
        (RegisterSpec.as_obs ⟨["acc", "glimpse"], [1, 2], [true, false]⟩
          [[[5], [7]], [[1, 2], [3, 4]]]) = [[[5], [7]], [[1, 2], [3, 4]]] ∧
    RegisterSpec.as_obs ⟨["acc", "glimpse"], [1, 2], [true, false]⟩
        (RegisterSpec.from_obs ⟨["acc", "glimpse"], [1, 2], [true, false]⟩
          (RegisterSpec.as_obs ⟨["acc", "glimpse"], [1, 2], [true, false]⟩
            [[[5], [7]], [[1, 2], [3, 4]]])) =
      RegisterSpec.as_obs ⟨["acc", "glimpse"], [1, 2], [true, false]⟩
        [[[5], [7]], [[1, 2], [3, 4]]] :=
  registerSpec_roundtrip ⟨["acc", "glimpse"], [1, 2], [true, false]⟩
    [[[5], [7]], [[1, 2], [3, 4]]] 2
    (List.Forall₂.cons ⟨rfl, by decide⟩
      (List.Forall₂.cons ⟨rfl, by decide⟩ List.Forall₂.nil))
    (by simp)


lemma accFold_zeros (a d : ℚ) :
    ∀ (l : List (String × ℚ)) (p : ℚ × ℚ), (∀ ka ∈ l, ka.2 = 0) →
      accFold a d l p = p := by
  intro l
  induction l with
  | nil => intro p _; rfl
  | cons ka rest ih =>
      intro p hz
      have h0 : ka.2 = 0 := hz ka (by simp)
      have hstep : accFold a d (ka :: rest) p =
          accFold a d rest (p.1 - ka.2, p.2 + ka.2 * arithmeticActionsDict ka.1 a d) := rfl
      rw [hstep, h0]
      simp only [sub_zero, zero_mul, add_zero]
      exact ih p (fun x hx => hz x (List.mem_cons_of_mem _ hx))

lemma zip_snd_zero {keys : List String} {xs : List ℚ}
    (hz : ∀ i, i < xs.length → xs[i]? = some 0) :
    ∀ ka ∈ keys.zip xs, ka.2 = 0 := by
  intro ka hka
  have hmem : ka.2 ∈ xs := (List.of_mem_zip hka).2
  obtain ⟨i, hi⟩ := List.mem_iff_getElem?.mp hmem
  have hilt : i < xs.length := by
    by_contra hge
    rw [List.getElem?_eq_none (by omega)] at hi
    exact Option.noConfusion hi
  have := hz i hilt
  rw [this] at hi
  exact (Option.some.injEq .. ▸ hi).symm

lemma accFold_onehot (a d : ℚ) :
    ∀ (keys : List String) (xs : List ℚ) (j : ℕ) (c v : ℚ),
      xs.length = keys.length → xs[j]? = some 1 →
      (∀ i, i < xs.length → i ≠ j → xs[i]? = some 0) →
      accFold a d (keys.zip xs) (c, v) =
        (c - 1, v + arithmeticActionsDict (keys[j]?.getD "") a d) := by
  intro keys
  induction keys with
  | nil =>
      intro xs j c v hlen hhot _
      rw [List.length_eq_zero.mp hlen] at hhot
      simp at hhot
  | cons k ks ih =>
      intro xs j c v hlen hhot hz
      cases xs with
      | nil => simp at hlen
      | cons x xs2 =>
          cases j with
          | zero =>
              have hx : x = 1 := by simpa using hhot
              have hz2 : ∀ i, i < xs2.length → xs2[i]? = some 0 := by
                intro i hi
                have := hz (i + 1) (by simpa using Nat.succ_lt_succ hi) (by omega)
                simpa using this
              have hstep : accFold a d ((k :: ks).zip (x :: xs2)) (c, v) =
                  accFold a d (ks.zip xs2)
                    (c - x, v + x * arithmeticActionsDict k a d) := rfl
              rw [hstep, hx, accFold_zeros a d _ _ (zip_snd_zero hz2)]
              simp
          | succ j2 =>
              have hx : x = 0 := by
                have := hz 0 (by simp) (by omega)
                simpa using this
              have hstep : accFold a d ((k :: ks).zip (x :: xs2)) (c, v) =
                  accFold a d (ks.zip xs2)
                    (c - x, v + x * arithmeticActionsDict k a d) := rfl
              rw [hstep, hx]
              simp only [sub_zero, zero_mul, add_zero]
              have := ih xs2 j2 c v (by simpa using hlen) (by simpa using hhot)
                (fun i hi hne => by
                  have := hz (i + 1) (by simpa using Nat.succ_lt_succ hi) (by omega)
                  simpa using this)
              simpa using this

/-- C5: in `GridArithmetic.build_step`, when exactly one arithmetic action
is hot (activation 1.0) and every other action component is 0.0, the new
`acc` is exactly that operator applied to the previous `acc` and `digit`
registers, clipped to [-1000, 1000]; and when every action component is
0.0 the accumulator is carried over unchanged (given it already lies in
the clip range). -/
theorem gridArithmetic_build_step_acc (keys : List String) (acc digit : ℚ)
    (a : List ℚ) (hlen : a.length = 7 + keys.length) :
    (∀ j, j < keys.length → a[7 + j]? = some 1 →
      (∀ i, i < a.length → i ≠ 7 + j → a[i]? = some 0) →
      gridBuildStepAcc keys acc digit a =
        clipByValue (-1000) 1000
          (arithmeticActionsDict (keys[j]?.getD "") acc digit)) ∧
    ((∀ i, i < a.length → a[i]? = some 0) → -1000 ≤ acc → acc ≤ 1000 →
      gridBuildStepAcc keys acc digit a = acc) := by
  have harith : (a.drop 7).length = keys.length := by
    simp [hlen]
  have hidx : ∀ i, (a.drop 7)[i]? = a[7 + i]? := by
    intro i
    rw [List.getElem?_drop]
  constructor
  · intro j hj hhot hz
    have hhot2 : (a.drop 7)[j]? = some 1 := by rw [hidx]; exact hhot
    have hz2 : ∀ i, i < (a.drop 7).length → i ≠ j → (a.drop 7)[i]? = some 0 := by
      intro i hi hne
      rw [hidx]
      exact hz (7 + i) (by omega) (by omega)
    unfold gridBuildStepAcc buildStepAcc unpackArithActions
    rw [accFold_onehot acc digit keys (a.drop 7) j 1 0 harith hhot2 hz2]
    norm_num
  · intro hz hlo hhi
    have hz2 : ∀ i, i < (a.drop 7).length → (a.drop 7)[i]? = some 0 := by
      intro i hi
      rw [hidx]
      exact hz (7 + i) (by omega)
    unfold gridBuildStepAcc buildStepAcc unpackArithActions
    rw [accFold_zeros acc digit _ _ (zip_snd_zero hz2)]
    simp only [clipByValue]
    rw [zero_add, one_mul, max_eq_left hlo, min_eq_left hhi]

/-- Witness for C5: operators `sorted(\x7b'+', '*'\x7d) = ['*', '+']`, the
`'+'` action hot, `acc = 3`, `digit = 4`. -/
theorem gridArithmetic_build_step_acc_witness :
    (∀ j, j < (["*", "+"] : List String).length →
      ([0, 0, 0, 0, 0, 0, 0, 0, 1] : List ℚ)[7 + j]? = some 1 →
      (∀ i, i < ([0, 0, 0, 0, 0, 0, 0, 0, 1] : List ℚ).length → i ≠ 7 + j →
        ([0, 0, 0, 0, 0, 0, 0, 0, 1] : List ℚ)[i]? = some 0) →
      gridBuildStepAcc ["*", "+"] 3 4 [0, 0, 0, 0, 0, 0, 0, 0, 1] =
        clipByValue (-1000) 1000
          (arithmeticActionsDict ((["*", "+"] : List String)[j]?.getD "") 3 4)) ∧
    ((∀ i, i < ([0, 0, 0, 0, 0, 0, 0, 0, 1] : List ℚ).length →
        ([0, 0, 0, 0, 0, 0, 0, 0, 1] : List ℚ)[i]? = some 0) →
      -1000 ≤ (3 : ℚ) → (3 : ℚ) ≤ 1000 →
      gridBuildStepAcc ["*", "+"] 3 4 [0, 0, 0, 0, 0, 0, 0, 0, 1] = 3) :=
  gridArithmetic_build_step_acc ["*", "+"] 3 4 [0, 0, 0, 0, 0, 0, 0, 0, 1] rfl


lemma getInitialValues_length (regs : List (String × InitialValue))
    (ov : String → Option (List (List ℚ))) :
    ∀ rng, (getInitialValues regs ov rng).1.length = regs.length := by
  induction regs with
  | nil => intro rng; rfl
  | cons r rest ih =>
      intro rng
      cases r with
      | mk n iv => simp [getInitialValues, ih]

lemma instantiateDraws_length (regs : List (String × InitialValue))
    (ov : String → Option (List (List ℚ))) :
    ∀ (n rng : ℕ), (instantiateDraws regs ov n rng).1.length = n := by
  intro n
  induction n with
  | zero => intro rng; rfl
  | succ m ih => intro rng; simp [instantiateDraws, ih]

lemma instantiateDraws_getElem (regs : List (String × InitialValue))
    (ov : String → Option (List (List ℚ))) :
    ∀ (n rng i : ℕ), i < n →
      (instantiateDraws regs ov n rng).1[i]? =
        some (getInitialValues regs ov (rngAfter regs ov i rng)).1 := by
  intro n
  induction n with
  | zero => intro rng i hi; omega
  | succ m ih =>
      intro rng i hi
      cases i with
      | zero => simp [instantiateDraws, rngAfter]
      | succ i2 =>
          have := ih (getInitialValues regs ov rng).2 i2 (by omega)
          simpa [instantiateDraws, rngAfter] using this

lemma pyZipStar_getElem {α : Type} (dflt : α) (k : ℕ) :
    ∀ (ls : List (List α)) (j : ℕ), ls ≠ [] → (∀ d ∈ ls, d.length = k) → j < k →
      (pyZipStar ls)[j]? = some (ls.map (fun d => d[j]?.getD dflt)) := by
  intro ls
  induction ls with
  | nil => intro j h; exact absurd rfl h
  | cons l rest ih =>
      intro j _ hlen hj
      cases rest with
      | nil =>
          have hl : j < l.length := by rw [hlen l (by simp)]; exact hj
          simp only [pyZipStar, List.getElem?_map, List.map_cons, List.map_nil]
          rw [List.getElem?_eq_getElem hl]
          simp
      | cons l2 rest2 =>
          have hl : j < l.length := by rw [hlen l (by simp)]; exact hj
          have hZ := ih j (by simp)
            (fun d hd => hlen d (List.mem_cons_of_mem _ hd)) hj
          simp only [pyZipStar] at hZ ⊢
          rw [List.getElem?_zipWith, List.getElem?_eq_getElem hl, hZ]
          simp [List.getElem?_eq_getElem hl]

/-- C6: `RegisterSpec.instantiate(batch_size=N)` makes `N` separate calls to
`get_initial_values`, one per batch element, each starting from the RNG
state left by the previous call; the resulting bank holds, per register, the
axis-0 concatenation of the per-element values; and a stochastic `init_fn`
can therefore produce different rows for `N > 1`, as the final concrete
register (whose rows 0 and 1 differ) shows. -/
theorem registerSpec_instantiate_per_element (regs : List (String × InitialValue))
    (ov : String → Option (List (List ℚ))) (n rng : ℕ) :
    (instantiateDraws regs ov n rng).1.length = n ∧
    (∀ i, i < n → (instantiateDraws regs ov n rng).1[i]? =
      some (getInitialValues regs ov (rngAfter regs ov i rng)).1) ∧
    (∀ j, j < regs.length → 0 < n →
      (instantiate regs ov n rng).1[j]? =
        some (((instantiateDraws regs ov n rng).1.map
          (fun d => d[j]?.getD [])).flatten)) ∧
    (∃ reg : List (List ℚ),
      (instantiate [("r", InitialValue.sampled [1]
          (fun _ r => ([[(r : ℚ)]], r + 1)))] (fun _ => none) 2 0).1 = [reg] ∧
      reg[0]? ≠ reg[1]?) := by
  refine ⟨instantiateDraws_length regs ov n rng,
    fun i hi => instantiateDraws_getElem regs ov n rng i hi, ?_, ?_⟩
  · intro j hj hn
    have hne : (instantiateDraws regs ov n rng).1 ≠ [] := by
      intro h
      have := instantiateDraws_length regs ov n rng
      rw [h] at this
      simp at this
      omega
    have hlen : ∀ d ∈ (instantiateDraws regs ov n rng).1, d.length = regs.length := by
      intro d hd
      obtain ⟨i, hi⟩ := List.mem_iff_getElem?.mp hd
      have hilt : i < n := by
        by_contra hge
        rw [List.getElem?_eq_none] at hi
        · exact Option.noConfusion hi
        · rw [instantiateDraws_length regs ov n rng]; omega
      rw [instantiateDraws_getElem regs ov n rng i hilt] at hi
      have : d = (getInitialValues regs ov (rngAfter regs ov i rng)).1 :=
        (Option.some.injEq .. ▸ hi).symm
      rw [this, getInitialValues_length]
    have hz := pyZipStar_getElem ([] : List (List ℚ)) regs.length
      (instantiateDraws regs ov n rng).1 j hne hlen hj
    simp [instantiate, hz]
  · refine ⟨[[0], [1]], ?_, ?_⟩
    · rfl
    · simp

/-- C8: entering an `RLContext` fails exactly when some context (possibly the
same instance) is already active, a successful entry makes that instance the
active one, exiting always clears the slot, and any sequence of
enter/leave operations keeps at most one context active. -/
theorem rlContext_single_active :
    (∀ i a, (∃ e, rlContextEnter i a = Except.error e) ↔ a ≠ none) ∧
    (∀ i, ∃ e, rlContextEnter i (some i) = Except.error e) ∧
    (∀ i, rlContextEnter i none = Except.ok (some i)) ∧
    (∀ a, rlContextLeave a = none) ∧
    (∀ ops : List CtxOp, numActive (ops.foldl applyCtxOp none) ≤ 1) := by
  refine ⟨?_, ?_, ?_, ?_, ?_⟩
  · intro i a
    cases a <;> simp [rlContextEnter]
  · intro i
    exact ⟨_, rfl⟩
  · intro i
    rfl
  · intro a
    rfl
  · intro ops
    have : ∀ a : Option ℕ, numActive (ops.foldl applyCtxOp a) ≤ 1 := by
      induction ops with
      | nil => intro a; cases a <;> simp [numActive]
      | cons op rest ih => intro a; exact ih _
    exact this none

end DPS
